import Mathlib

/-!
# Verification of the PDF analysis core

Shallow embedding of the document-analysis pipeline of `app/extract_all.py`
and `app/signature_check.py`.  External collaborators (PyMuPDF, pdfplumber,
pikepdf, pytesseract, OpenCV) are modelled as inputs: each fallible external
call is represented by an `Except Unit` value supplied to the embedded
function, exception propagation by the `Except` monad, and rendered pixel
data by its ink statistics.  Python floats are modelled by exact rationals,
Python strings by Lean strings restricted to the ASCII behaviour relevant
here.
-/

namespace PdfService

/-! ## Text normalizer (`_clean_text` in `extract_all.py`)

The Python code is
```
s = s.replace("\x7br", "\x7bn"); s = re.sub(r"[ \x7bt]+", " ", s)
s = re.sub(r"\x7bn\x7b3,\x7d", "\x7bn\x7bn", s); return s.strip()
```
modelled stage by stage on `List Char`.
-/

/-- Horizontal whitespace, the character class of the regex `[ \t]+`. -/
def isHT (c : Char) : Bool := c = ' ' || c = '\t'

/-- The ASCII/Latin-1 characters Python `str.strip()` removes
(`str.isspace` characters). -/
def isPyWS (c : Char) : Bool :=
  c = ' ' || c = '\t' || c = '\n' || c = '\r' || c = '\x0b' || c = '\x0c' ||
  c = '\x1c' || c = '\x1d' || c = '\x1e' || c = '\x1f' || c = '\x85'

/-- `s.replace("\r", "\n")`. -/
def replaceCR (l : List Char) : List Char :=
  l.map (fun c => if c = '\r' then '\n' else c)

/-- `re.sub(r"[ \t]+", " ", s)`: every maximal run of spaces/tabs becomes
one space (the single space is emitted at the end of the run). -/
def collapseWS : List Char → List Char
  | [] => []
  | [c] => if isHT c then [' '] else [c]
  | c :: d :: rest =>
    if isHT c then
      (if isHT d then collapseWS (d :: rest) else ' ' :: collapseWS (d :: rest))
    else c :: collapseWS (d :: rest)

/-- `re.sub(r"\n{3,}", "\n\n", s)`: a maximal run of `k ≥ 3` newlines
becomes two (equivalently, drop newlines while three are adjacent). -/
def collapseNL : List Char → List Char
  | [] => []
  | c :: rest =>
    match c, rest with
    | '\n', '\n' :: '\n' :: _ => collapseNL rest
    | _, _ => c :: collapseNL rest

/-- Right strip: remove trailing characters satisfying `p`. -/
def rstripL (p : Char → Bool) (l : List Char) : List Char :=
  ((l.reverse).dropWhile p).reverse

/-- Python `str.strip()` (both ends) with character class `p`. -/
def stripBoth (p : Char → Bool) (l : List Char) : List Char :=
  rstripL p (l.dropWhile p)

/-- The whole normalization pipeline on character lists. -/
def cleanList (l : List Char) : List Char :=
  stripBoth isPyWS (collapseNL (collapseWS (replaceCR l)))

/-- `_clean_text` of `extract_all.py` (the `if not s: return ""` guard,
then the three regex stages and `strip`). -/
def _clean_text (s : String) : String :=
  if s = "" then "" else String.mk (cleanList s.data)

/-- Python `str.strip()` on a string. -/
def stripStr (s : String) : String := String.mk (stripBoth isPyWS s.data)

/-! ### Normal-form invariants of cleaned text -/

/-- No tab, and no two adjacent horizontal-whitespace characters:
exactly the inputs on which `collapseWS` is the identity. -/
def okWS : List Char → Bool
  | [] => true
  | [c] => !(c = '\t')
  | c :: d :: rest => !(c = '\t') && !(isHT c && isHT d) && okWS (d :: rest)

/-- No three adjacent newlines: exactly the inputs on which `collapseNL`
is the identity. -/
def okNL : List Char → Bool
  | a :: b :: c :: rest =>
    !(a = '\n' && b = '\n' && c = '\n') && okNL (b :: c :: rest)
  | _ => true

/-! ## Per-page text with OCR fallback (`extract_text_and_tables`, text loop)

A page carries its raw native text and the outcome of the fallible
rasterize-and-OCR call (`page.get_pixmap` + `pytesseract.image_to_string`);
`_ocr_page_image` cleans the engine output.  The Python loop has no
`try`/`except`, so an engine error propagates in the `Except` monad.
-/

structure FPage where
  nativeText : String
  ocrRaw : Except Unit String

/-- The body of the per-page text loop:
clean the native text; if shorter than the threshold run OCR and keep the
OCR text when strictly longer. -/
def pageText (thr : Nat) (p : FPage) : Except Unit String :=
  let text := _clean_text p.nativeText
  if text.length < thr then
    match p.ocrRaw with
    | .error e => .error e
    | .ok raw =>
      let ocrText := _clean_text raw
      .ok (if text.length < ocrText.length then ocrText else text)
  else .ok text

/-- The text loop over all pages (page numbers from `pn`),
producing `(page_no, text)` records; an uncaught exception aborts it. -/
def pagesTextFrom (thr : Nat) : Nat → List FPage → Except Unit (List (Nat × String))
  | _, [] => .ok []
  | pn, p :: rest =>
    match pageText thr p with
    | .error e => .error e
    | .ok t =>
      match pagesTextFrom thr (pn + 1) rest with
      | .error e => .error e
      | .ok ts => .ok ((pn, t) :: ts)

/-! ## Tables (`extract_text_and_tables`, table loop)

A pdfplumber page carries its `bbox` and the outcome of
`p.extract_tables()` (a grid of optional cell strings); the whole per-page
body sits in `try: ... except Exception: continue`.
-/

structure TableRecord where
  page_no : Nat
  rows : List (List String)
  cols : Nat
  bbox : List ℚ
deriving DecidableEq

/-- `(c or "").strip()` on one cell. -/
def cellStrip (c : Option String) : String := stripStr (c.getD "")

structure PPage where
  bboxP : List ℚ
  tablesRes : Except Unit (List (List (List (Option String))))

/-- Per-page table processing: strip cells, keep rows with a truthy cell,
drop empty tables, record `cols` from the first kept row and the page bbox;
an exception from `extract_tables` skips the page. -/
def processPageTables (pageno : Nat) (p : PPage) : List TableRecord :=
  match p.tablesRes with
  | .error _ => []
  | .ok ts => ts.filterMap (fun t =>
      let rows := (t.map (fun row => row.map cellStrip)).filter
        (fun r => r.any (fun c => !(c == "")))
      match rows with
      | [] => none
      | r0 :: _ => some ⟨pageno, rows, r0.length, p.bboxP⟩)

/-- The table loop over all pages, numbering from `pn`. -/
def tablesFrom : Nat → List PPage → List TableRecord
  | _, [] => []
  | pn, p :: rest => processPageTables pn p ++ tablesFrom (pn + 1) rest

structure ExtractOut where
  pages : List (Nat × String)
  tables : List TableRecord
deriving DecidableEq

/-- `extract_text_and_tables`: `fitz.open` and `pdfplumber.open` are outside
any `try`, so either open failure, or an OCR failure inside the text loop,
propagates. -/
def extract_text_and_tables (fitzOpen : Except Unit (List FPage))
    (plumberOpen : Except Unit (List PPage)) (thr : Nat) : Except Unit ExtractOut :=
  match fitzOpen with
  | .error e => .error e
  | .ok fpages =>
    match pagesTextFrom thr 1 fpages with
    | .error e => .error e
    | .ok texts =>
      match plumberOpen with
      | .error e => .error e
      | .ok ppages => .ok ⟨texts, tablesFrom 1 ppages⟩

/-! ## PDF date parsing (`_parse_pdf_date` in `signature_check.py`)

Python slicing, `int()` (ASCII model: optional surrounding whitespace, one
optional sign, digits with single interior underscores) and the
`datetime(...)` range validation plus `isoformat()` are modelled exactly.
-/

/-- Python `s[a:b]` for `0 ≤ a ≤ b` (clamped at the end of the list). -/
def pySlice (l : List Char) (a b : Nat) : List Char := (l.drop a).take (b - a)

/-- Value of a digit list. -/
def digitsVal (l : List Char) : Nat :=
  l.foldl (fun n c => n * 10 + (c.toNat - '0'.toNat)) 0

/-- Digits with optional single interior underscores, as Python `int`
accepts after the first character (which the caller checks is a digit). -/
def undTail : List Char → Bool
  | [] => true
  | '_' :: c :: rest => c.isDigit && undTail (c :: rest)
  | ['_'] => false
  | c :: rest => c.isDigit && undTail rest

/-- Python `int()` on an unsigned token: nonempty, starts with a digit,
digits with single interior underscores. -/
def pyIntNat (l : List Char) : Option Nat :=
  match l with
  | [] => none
  | '_' :: _ => none
  | _ => if undTail l then some (digitsVal (l.filter Char.isDigit)) else none

/-- Python `int(str)`: strip whitespace, optional sign, digit token;
`none` models the `ValueError` the surrounding `try` catches. -/
def pyInt (l : List Char) : Option Int :=
  let t := stripBoth isPyWS l
  match t with
  | '+' :: rest => (pyIntNat rest).map (fun n => (n : Int))
  | '-' :: rest => (pyIntNat rest).map (fun n => -(n : Int))
  | _ => (pyIntNat t).map (fun n => (n : Int))

def isLeapY (y : Nat) : Bool := y % 4 == 0 && (y % 100 != 0 || y % 400 == 0)

def daysInMonth (y m : Nat) : Nat :=
  if m == 2 then (if isLeapY y then 29 else 28)
  else if m == 4 || m == 6 || m == 9 || m == 11 then 30
  else 31

/-- The argument ranges `datetime.datetime(y, mo, d, h, mi, s)` accepts. -/
def dtValid (y mo d h mi s : Int) : Bool :=
  1 ≤ y && y ≤ 9999 && 1 ≤ mo && mo ≤ 12 && 1 ≤ d &&
  d ≤ (daysInMonth y.toNat mo.toNat : Int) &&
  0 ≤ h && h ≤ 23 && 0 ≤ mi && mi ≤ 59 && 0 ≤ s && s ≤ 59

/-- Decimal rendering of `n`, zero-padded on the left to width `w`. -/
def padNum (w n : Nat) : String :=
  String.mk (List.replicate (w - (Nat.repr n).length) '0' ++ (Nat.repr n).data)

/-- `datetime.isoformat()` with zero microseconds. -/
def isoFormat (y mo d h mi s : Nat) : String :=
  padNum 4 y ++ "-" ++ padNum 2 mo ++ "-" ++ padNum 2 d ++ "T" ++
  padNum 2 h ++ ":" ++ padNum 2 mi ++ ":" ++ padNum 2 s

/-- `_parse_pdf_date`: `""` unless the string starts with `D:`; then the six
fixed slices are parsed (`int(slice or 0)` for hour/minute/second) and any
parse or range failure yields `""` through the `except`. -/
def _parse_pdf_date (pdf_date : String) : String :=
  match pdf_date.data with
  | 'D' :: ':' :: s =>
    let comp := fun (a b : Nat) (dflt : Bool) =>
      let sl := pySlice s a b
      if dflt && sl.isEmpty then some (0 : Int) else pyInt sl
    match comp 0 4 false, comp 4 6 false, comp 6 8 false,
          comp 8 10 true, comp 10 12 true, comp 12 14 true with
    | some y, some mo, some d, some h, some mi, some sec =>
      if dtValid y mo d h mi sec then
        isoFormat y.toNat mo.toNat d.toNat h.toNat mi.toNat sec.toNat
      else ""
    | _, _, _, _, _, _ => ""
  | _ => ""

/-! ## Digital signature detection (`detect_digital_signatures`)

The pikepdf object graph is modelled by the data the code reads: the
optional (truthy) `/AcroForm`, its `/Fields` array whose entries may raise
on access (per-field `try`), and per field the `/FT` name, `/T`, optional
`/V` dictionary and its `/Name`, `/Location`, `/Reason`, `/M` entries.
Kid fields are carried in the model so that the traversal the spec
describes can be stated, but the code never reads them.
-/

structure SigVal where
  name : String
  location : String
  reason : String
  m : String
deriving DecidableEq

inductive FieldData where
  | mk (ft : Option String) (t : String) (v : Option SigVal)
       (kids : List FieldData)

def FieldData.ft : FieldData → Option String | .mk x _ _ _ => x
def FieldData.t : FieldData → String | .mk _ x _ _ => x
def FieldData.v : FieldData → Option SigVal | .mk _ _ x _ => x
def FieldData.kids : FieldData → List FieldData | .mk _ _ _ x => x

/-- One emitted metadata dict: the signed shape carries signer, location,
reason, parsed and raw times; the unsigned shape only the field name. -/
inductive SigRecord where
  | signedRec (field_name signer_name location reason signed_on raw_time : String)
  | unsignedRec (field_name : String)
deriving DecidableEq

def SigRecord.field_name : SigRecord → String
  | .signedRec n _ _ _ _ _ => n
  | .unsignedRec n => n

/-- The loop body for one successfully dereferenced field. -/
def processField (fd : FieldData) : Option SigRecord :=
  match fd.ft with
  | none => none
  | some ftn =>
    if ftn = "Sig" then
      match fd.v with
      | some sd =>
        some (.signedRec fd.t sd.name sd.location sd.reason
          (_parse_pdf_date sd.m) sd.m)
      | none => some (.unsignedRec fd.t)
    else none

structure AcroData where
  fields : List (Except Unit FieldData)

/-- `detect_digital_signatures`: the outer `try` returns the empty list on
any open failure; a falsy `/AcroForm` returns the empty list; each
top-level `/Fields` entry is processed, skipping entries that raise. -/
def detect_digital_signatures (openRes : Except Unit (Option AcroData)) :
    List SigRecord :=
  match openRes with
  | .error _ => []
  | .ok none => []
  | .ok (some acro) => acro.fields.filterMap (fun f =>
      match f with
      | .error _ => none
      | .ok fd => processField fd)

mutual
/-- Modelled from the spec: the names of every signature-typed field
anywhere in the form field tree, "recursively, including any nested kid
fields" (the code itself never descends into kids). -/
def specSigFieldNames : FieldData → List String
  | .mk ft t _ kids =>
    (if ft = some "Sig" then [t] else []) ++ specSigNamesL kids

def specSigNamesL : List FieldData → List String
  | [] => []
  | f :: fs => specSigFieldNames f ++ specSigNamesL fs
end

/-! ## Wet-signature heuristic (`detect_wet_signatures`)

A fitz page is modelled by its bounding rectangle, its `search_for`
results per label, and the ink statistics (`np.count_nonzero(bw)`,
`bw.size`) of rendering any clip rectangle.  Coordinates and densities are
exact rationals.
-/

structure Rect where
  x0 : ℚ
  y0 : ℚ
  x1 : ℚ
  y1 : ℚ
deriving DecidableEq

/-- fitz `&`: rectangle intersection. -/
def Rect.inter (a b : Rect) : Rect :=
  ⟨max a.x0 b.x0, max a.y0 b.y0, min a.x1 b.x1, min a.y1 b.y1⟩

/-- fitz `Rect.is_empty`: width or height not positive. -/
def Rect.isEmptyR (r : Rect) : Bool := r.x1 ≤ r.x0 || r.y1 ≤ r.y0

/-- The candidate region to the right of and slightly above a label hit
(`expand_w = 200`, `expand_h = 60`, offsets `+10`/`-10`). -/
def cropFor (r : Rect) : Rect :=
  ⟨r.x1 + 10, r.y0 - 10, r.x1 + 10 + 200, r.y0 - 10 + 60⟩

structure InkStats where
  ink : Nat
  total : Nat
deriving DecidableEq

/-- `float(np.count_nonzero(bw)) / bw.size`. -/
def densityOf (st : InkStats) : ℚ := (st.ink : ℚ) / (st.total : ℚ)

/-- Floor of a rational, by floor division of numerator by denominator
(kernel-computable). -/
def ratFloor (q : ℚ) : Int := Int.fdiv q.num q.den

/-- Round half to even to the nearest integer: Python `round(x)` on the
exact rational value, by integer arithmetic on the fractional remainder. -/
def roundHE (q : ℚ) : Int :=
  if 2 * (q.num - ratFloor q * (q.den : Int)) < (q.den : Int) then ratFloor q
  else if (q.den : Int) < 2 * (q.num - ratFloor q * (q.den : Int)) then ratFloor q + 1
  else if ratFloor q % 2 = 0 then ratFloor q else ratFloor q + 1

def round4 (q : ℚ) : ℚ := (roundHE (q * 10000) : ℚ) / 10000

structure WetDetail where
  page : Nat
  label : String
  bbox : List ℚ
  ink_density : ℚ
  present : Bool
deriving DecidableEq

structure WPage where
  rect : Rect
  search : String → List Rect
  render : Rect → InkStats

def LABELS : List String :=
  ["signature", "signatory", "authorised signatory",
   "authorized signatory", "approved by", "signed by"]

/-- `text_instances`: for each label, every `search_for` hit. -/
def hitsOf (pg : WPage) : List (String × Rect) :=
  LABELS.flatMap (fun lab => (pg.search lab).map (fun r => (lab, r)))

/-- One iteration of the inner loop: crop, intersect with the page,
skip if empty, render and score. -/
def processHit (pageRect : Rect) (render : Rect → InkStats) (thr : ℚ)
    (pn : Nat) (hit : String × Rect) : Option WetDetail :=
  let crop := (cropFor hit.2).inter pageRect
  if crop.isEmptyR then none
  else
    let q := densityOf (render crop)
    some { page := pn, label := hit.1,
           bbox := [crop.x0, crop.y0, crop.x1, crop.y1],
           ink_density := round4 q, present := decide (thr ≤ q) }

/-- The running `(count, details)` state updated by one hit: `count` is
incremented from the unrounded density test, the detail appended. -/
def wetStep (thr : ℚ) (pn : Nat) (pageRect : Rect) (render : Rect → InkStats)
    (acc : Nat × List WetDetail) (hit : String × Rect) : Nat × List WetDetail :=
  match processHit pageRect render thr pn hit with
  | none => acc
  | some d => (acc.1 + (if d.present then 1 else 0), acc.2 ++ [d])

/-- The page loop, numbering pages from `pn`. -/
def wetPages (thr : ℚ) : Nat → List WPage → Nat × List WetDetail →
    Nat × List WetDetail
  | _, [], acc => acc
  | pn, pg :: rest, acc =>
    wetPages thr (pn + 1) rest
      ((hitsOf pg).foldl (wetStep thr pn pg.rect pg.render) acc)

structure WetResult where
  wet_signatures_detected : Nat
  details : List WetDetail
deriving DecidableEq

def detect_wet_core (thr : ℚ) (pages : List WPage) : WetResult :=
  ⟨(wetPages thr 1 pages (0, [])).1, (wetPages thr 1 pages (0, [])).2⟩

/-- `detect_wet_signatures`: `fitz.open` is outside any `try`, so an open
failure propagates instead of yielding a degraded result. -/
def detect_wet_signatures (openRes : Except Unit (List WPage)) (thr : ℚ) :
    Except Unit WetResult :=
  match openRes with
  | .error e => .error e
  | .ok pages => .ok (detect_wet_core thr pages)

/-! ## Lemmas: stripping -/

theorem dropWhile_head_false (p : Char → Bool) :
    ∀ (l : List Char) (a : Char), (l.dropWhile p).head? = some a → p a = false := by
  intro l
  induction l with
  | nil => intro a h; simp [List.dropWhile] at h
  | cons b m ih =>
    intro a h
    rw [List.dropWhile_cons] at h
    by_cases hb : p b
    · exact ih a (by simpa [hb] using h)
    · simp only [hb, if_neg, Bool.false_eq_true, ite_false] at h
      obtain rfl : b = a := by simpa using h
      simpa using hb

theorem dropWhile_eq_self_of (p : Char → Bool) (l : List Char)
    (h : ∀ a, l.head? = some a → p a = false) : l.dropWhile p = l := by
  cases l with
  | nil => rfl
  | cons b m => rw [List.dropWhile_cons, h b rfl]; simp

theorem dropWhile_self_idem (p : Char → Bool) (l : List Char) :
    (l.dropWhile p).dropWhile p = l.dropWhile p :=
  dropWhile_eq_self_of p _ (dropWhile_head_false p l)

theorem exists_front_dropWhile (p : Char → Bool) (l : List Char) :
    ∃ t, l = t ++ l.dropWhile p := by
  induction l with
  | nil => exact ⟨[], rfl⟩
  | cons a m ih =>
    by_cases h : p a
    · obtain ⟨t, ht⟩ := ih
      refine ⟨a :: t, ?_⟩
      rw [List.dropWhile_cons]
      simpa [h] using congrArg (a :: ·) ht
    · exact ⟨[], by rw [List.dropWhile_cons]; simp [h]⟩

theorem exists_back_rstrip (p : Char → Bool) (l : List Char) :
    ∃ u, l = rstripL p l ++ u := by
  obtain ⟨t, ht⟩ := exists_front_dropWhile p l.reverse
  refine ⟨t.reverse, ?_⟩
  have := congrArg List.reverse ht
  simpa [rstripL, List.reverse_append] using this

theorem rstrip_head_keep (p : Char → Bool) (l : List Char)
    (h : ∀ a, l.head? = some a → p a = false) :
    ∀ a, (rstripL p l).head? = some a → p a = false := by
  intro a ha
  obtain ⟨u, hu⟩ := exists_back_rstrip p l
  cases hr : rstripL p l with
  | nil => rw [hr] at ha; simp at ha
  | cons b m =>
    rw [hr] at ha
    obtain rfl : b = a := by simpa using ha
    apply h
    rw [hu, hr]
    rfl

theorem rstrip_rstrip (p : Char → Bool) (l : List Char) :
    rstripL p (rstripL p l) = rstripL p l := by
  unfold rstripL
  rw [List.reverse_reverse, dropWhile_self_idem]

theorem stripBoth_idem (p : Char → Bool) (l : List Char) :
    stripBoth p (stripBoth p l) = stripBoth p l := by
  unfold stripBoth
  rw [dropWhile_eq_self_of p _
    (rstrip_head_keep p _ (dropWhile_head_false p l)), rstrip_rstrip]

theorem exists_mid_stripBoth (p : Char → Bool) (l : List Char) :
    ∃ t u, l = t ++ stripBoth p l ++ u := by
  obtain ⟨t, ht⟩ := exists_front_dropWhile p l
  obtain ⟨u, hu⟩ := exists_back_rstrip p (l.dropWhile p)
  refine ⟨t, u, ?_⟩
  calc l = t ++ l.dropWhile p := ht
    _ = t ++ (stripBoth p l ++ u) := by
        exact congrArg (t ++ ·) hu
    _ = t ++ stripBoth p l ++ u := by rw [List.append_assoc]

theorem mem_stripBoth (p : Char → Bool) (l : List Char) (a : Char)
    (h : a ∈ stripBoth p l) : a ∈ l := by
  obtain ⟨t, u, htu⟩ := exists_mid_stripBoth p l
  rw [htu]
  simp [h]

/-! ## Lemmas: horizontal-whitespace normal form -/

theorem okWS_tail {a : Char} {l : List Char} (h : okWS (a :: l) = true) :
    okWS l = true := by
  cases l with
  | nil => rfl
  | cons b m =>
    simp only [okWS, Bool.and_eq_true] at h
    exact h.2

theorem okWS_cons {c : Char} {l : List Char} (h1 : ¬ c = '\t')
    (h2 : isHT c = true → ∀ d, l.head? = some d → isHT d = false)
    (h3 : okWS l = true) : okWS (c :: l) = true := by
  cases l with
  | nil => simp [okWS, h1]
  | cons d m =>
    simp only [okWS, Bool.and_eq_true]
    refine ⟨⟨by simp [h1], ?_⟩, h3⟩
    by_cases hc : isHT c = true
    · simp [h2 hc d rfl]
    · simp only [Bool.not_eq_true] at hc
      simp [hc]

theorem okWS_front {u : List Char} : ∀ {t : List Char},
    okWS (t ++ u) = true → okWS t = true := by
  intro t
  induction t with
  | nil => intro _; rfl
  | cons c t2 ih =>
    intro h
    cases t2 with
    | nil =>
      cases u with
      | nil => simpa using h
      | cons d m =>
        simp only [List.cons_append, List.nil_append, okWS,
          Bool.and_eq_true] at h
        simp only [okWS]
        exact h.1.1
    | cons d t3 =>
      simp only [List.cons_append, okWS, Bool.and_eq_true] at h
      have ht : okWS (d :: t3) = true := ih (by simpa using h.2)
      simp only [okWS, Bool.and_eq_true]
      exact ⟨h.1, ht⟩

theorem okWS_back {u : List Char} : ∀ {t : List Char},
    okWS (t ++ u) = true → okWS u = true := by
  intro t
  induction t with
  | nil => intro h; simpa using h
  | cons c t2 ih => intro h; exact ih (okWS_tail (by simpa using h))

theorem collapseWS_head : ∀ l : List Char,
    (collapseWS l).head? = l.head?.map (fun c => if isHT c then ' ' else c) := by
  intro l
  induction l using collapseWS.induct with
  | case1 => rfl
  | case2 c hc => simp [collapseWS, hc]
  | case3 c hc => simp [collapseWS, hc]
  | case4 c d rest hc hd ih =>
    have he : collapseWS (c :: d :: rest) = collapseWS (d :: rest) := by
      simp [collapseWS, hc, hd]
    rw [he, ih]
    simp [hc, hd]
  | case5 c d rest hc hd ih =>
    have he : collapseWS (c :: d :: rest) = ' ' :: collapseWS (d :: rest) := by
      simp [collapseWS, hc, hd]
    rw [he]
    simp [hc]
  | case6 c d rest hc ih =>
    have he : collapseWS (c :: d :: rest) = c :: collapseWS (d :: rest) := by
      simp [collapseWS, hc]
    rw [he]
    simp [hc]

theorem collapseWS_eq_self : ∀ {l : List Char}, okWS l = true →
    collapseWS l = l := by
  intro l
  induction l using collapseWS.induct with
  | case1 => intro _; rfl
  | case2 c hc =>
    intro h
    simp only [okWS] at h
    have h1 : ¬ c = '\t' := by simpa using h
    have hsp : c = ' ' := by
      rcases (show c = ' ' ∨ c = '\t' by simpa [isHT] using hc) with h' | h'
      · exact h'
      · exact absurd h' h1
    simp [collapseWS, hc, hsp]
  | case3 c hc => intro _; simp [collapseWS, hc]
  | case4 c d rest hc hd ih =>
    intro h
    simp only [okWS, Bool.and_eq_true] at h
    have := h.1.2
    simp [hc, hd] at this
  | case5 c d rest hc hd ih =>
    intro h
    simp only [okWS, Bool.and_eq_true] at h
    have hsp : c = ' ' := by
      rcases (show c = ' ' ∨ c = '\t' by simpa [isHT] using hc) with h' | h'
      · exact h'
      · exfalso; have := h.1.1; simp [h'] at this
    have he : collapseWS (c :: d :: rest) = ' ' :: collapseWS (d :: rest) := by
      simp [collapseWS, hc, hd]
    rw [he, ih h.2, hsp]
  | case6 c d rest hc ih =>
    intro h
    simp only [okWS, Bool.and_eq_true] at h
    have he : collapseWS (c :: d :: rest) = c :: collapseWS (d :: rest) := by
      simp [collapseWS, hc]
    rw [he, ih h.2]

theorem okWS_collapseWS : ∀ l : List Char, okWS (collapseWS l) = true := by
  intro l
  induction l using collapseWS.induct with
  | case1 => rfl
  | case2 c hc =>
    have he : collapseWS [c] = [' '] := by simp [collapseWS, hc]
    rw [he]; decide
  | case3 c hc =>
    have he : collapseWS [c] = [c] := by simp [collapseWS, hc]
    rw [he]
    simp only [okWS]
    have : ¬ c = '\t' := fun h' => hc (by simp [h', isHT])
    simpa using this
  | case4 c d rest hc hd ih =>
    have he : collapseWS (c :: d :: rest) = collapseWS (d :: rest) := by
      simp [collapseWS, hc, hd]
    rw [he]; exact ih
  | case5 c d rest hc hd ih =>
    have he : collapseWS (c :: d :: rest) = ' ' :: collapseWS (d :: rest) := by
      simp [collapseWS, hc, hd]
    rw [he]
    refine okWS_cons (by decide) ?_ ih
    intro _ e he'
    rw [collapseWS_head (d :: rest)] at he'
    simp only [List.head?_cons, Option.map_some'] at he'
    have hde : (if isHT d then ' ' else d) = e := by simpa using he'
    have hdf : isHT d = false := by simpa using hd
    rw [← hde]
    simp [hdf]
  | case6 c d rest hc ih =>
    have he : collapseWS (c :: d :: rest) = c :: collapseWS (d :: rest) := by
      simp [collapseWS, hc]
    rw [he]
    refine okWS_cons ?_ ?_ ih
    · intro h'; exact hc (by simp [h', isHT])
    · intro h'; exact absurd h' hc

/-! ## Lemmas: newline normal form -/

theorem collapseNL_nil : collapseNL [] = [] := rfl

theorem collapseNL_three (rest : List Char) :
    collapseNL ('\n' :: '\n' :: '\n' :: rest) = collapseNL ('\n' :: '\n' :: rest) :=
  rfl

theorem collapseNL_step (c : Char) (rest : List Char)
    (h : ¬ (c = '\n' ∧ ∃ r1, rest = '\n' :: '\n' :: r1)) :
    collapseNL (c :: rest) = c :: collapseNL rest := by
  rw [collapseNL.eq_def]
  split
  · next heq => exact absurd heq (by simp)
  · next c2 rest2 heq =>
    injection heq with h1 h2
    subst h1
    subst h2
    split
    · next r1 => exact absurd ⟨rfl, r1, rfl⟩ h
    · rfl

theorem collapseNL_one (c : Char) : collapseNL [c] = [c] := by
  rw [collapseNL_step c [] (by rintro ⟨_, r1, hr⟩; simp at hr), collapseNL_nil]

theorem okNL_tail {a : Char} {l : List Char} (h : okNL (a :: l) = true) :
    okNL l = true := by
  match l with
  | [] => rfl
  | [b] => rfl
  | b :: c :: m =>
    simp only [okNL, Bool.and_eq_true] at h
    exact h.2

theorem okNL_cons_ne {c : Char} {l : List Char} (hc : ¬ c = '\n')
    (h : okNL l = true) : okNL (c :: l) = true := by
  match l with
  | [] => rfl
  | [b] => rfl
  | b :: d :: m =>
    simp only [okNL, Bool.and_eq_true]
    exact ⟨by simp [hc], h⟩

theorem okNL_cons_nl {l : List Char} (h : okNL l = true)
    (hl : l.head? ≠ some '\n') : okNL ('\n' :: l) = true := by
  match l with
  | [] => rfl
  | [b] => rfl
  | b :: d :: m =>
    simp only [okNL, Bool.and_eq_true]
    refine ⟨?_, h⟩
    have hb : ¬ b = '\n' := fun hb => hl (by simp [hb])
    simp [hb]

theorem okNL_two_nl {l : List Char} (h : okNL l = true)
    (hl : l.head? ≠ some '\n') : okNL ('\n' :: '\n' :: l) = true := by
  match l with
  | [] => rfl
  | b :: m =>
    have hb : ¬ b = '\n' := fun hb => hl (by simp [hb])
    simp only [okNL, Bool.and_eq_true]
    refine ⟨by simp [hb], ?_⟩
    exact okNL_cons_nl h (by simpa using hb)

theorem okNL_front {u : List Char} : ∀ {t : List Char},
    okNL (t ++ u) = true → okNL t = true := by
  intro t
  induction t with
  | nil => intro _; rfl
  | cons c t2 ih =>
    intro h
    match t2, ih with
    | [], _ => rfl
    | [d], _ => rfl
    | d :: e :: t4, ih =>
      simp only [List.cons_append, okNL, Bool.and_eq_true] at h
      have h2 : okNL (d :: e :: t4) = true := ih (by simpa using h.2)
      simp only [okNL, Bool.and_eq_true]
      exact ⟨h.1, h2⟩

theorem okNL_back {u : List Char} : ∀ {t : List Char},
    okNL (t ++ u) = true → okNL u = true := by
  intro t
  induction t with
  | nil => intro h; simpa using h
  | cons c t2 ih => intro h; exact ih (okNL_tail (by simpa using h))

theorem collapseNL_head : ∀ l : List Char, (collapseNL l).head? = l.head? := by
  intro l
  induction l using collapseNL.induct with
  | case2 rest ih => rw [collapseNL_three, ih]; rfl
  | case3 c rest hside ih =>
    rw [collapseNL_step c rest (by
      intro ⟨h1, r1, h2⟩; exact hside r1 h1 h2)]
    rfl
  | case1 => rw [collapseNL_nil]

theorem collapseNL_eq_self : ∀ {l : List Char}, okNL l = true →
    collapseNL l = l := by
  intro l
  induction l using collapseNL.induct with
  | case2 rest ih =>
    intro h
    simp [okNL] at h
  | case3 c rest hside ih =>
    intro h
    rw [collapseNL_step c rest (by
      intro ⟨h1, r1, h2⟩; exact hside r1 h1 h2)]
    rw [ih (okNL_tail h)]
  | case1 => intro _; exact collapseNL_nil

theorem okNL_collapseNL : ∀ l : List Char, okNL (collapseNL l) = true := by
  intro l
  induction l using collapseNL.induct with
  | case2 rest ih => rw [collapseNL_three]; exact ih
  | case3 c rest hside ih =>
    rw [collapseNL_step c rest (by
      intro ⟨h1, r1, h2⟩; exact hside r1 h1 h2)]
    by_cases hcn : c = '\n'
    · match rest, ih, hside with
      | [], _, _ => rw [collapseNL_nil, hcn]; rfl
      | d :: r, ih, hside =>
        by_cases hdn : d = '\n'
        · match r, ih, hside with
          | [], _, _ => rw [collapseNL_one, hcn, hdn]; rfl
          | e :: r2, ih, hside =>
            have hen : ¬ e = '\n' := by
              intro he
              exact hside r2 hcn (by rw [hdn, he])
            have hstep : collapseNL (d :: e :: r2) = d :: collapseNL (e :: r2) := by
              apply collapseNL_step
              intro ⟨_, r3, hr⟩
              have : e = '\n' := by injection hr
              exact hen this
            rw [hstep] at ih ⊢
            rw [hcn, hdn]
            apply okNL_two_nl (okNL_tail ih)
            rw [collapseNL_head]
            simpa using hen
        · rw [hcn]
          apply okNL_cons_nl ih
          rw [collapseNL_head]
          simpa using hdn
    · exact okNL_cons_ne hcn ih
  | case1 => rw [collapseNL_nil]; rfl

theorem okWS_collapseNL : ∀ l : List Char, okWS l = true →
    okWS (collapseNL l) = true := by
  intro l
  induction l using collapseNL.induct with
  | case2 rest ih =>
    intro h
    rw [collapseNL_three]
    exact ih (okWS_tail h)
  | case3 c rest hside ih =>
    intro h
    rw [collapseNL_step c rest (by
      intro ⟨h1, r1, h2⟩; exact hside r1 h1 h2)]
    refine okWS_cons ?_ ?_ (ih (okWS_tail h))
    · intro hct
      have : okWS (c :: rest) = true := h
      match rest, this with
      | [], hx => simp only [okWS] at hx; simp [hct] at hx
      | d :: m, hx =>
        simp only [okWS, Bool.and_eq_true] at hx
        have := hx.1.1
        simp [hct] at this
    · intro hhc d hd
      rw [collapseNL_head] at hd
      match rest, hd, h with
      | [], hd, _ => exact absurd hd (by simp)
      | e :: m, hd, h =>
        have hde : e = d := by simpa using hd
        simp only [okWS, Bool.and_eq_true] at h
        have h12 := h.1.2
        rw [← hde]
        by_cases he : isHT e = true
        · simp [hhc, he] at h12
        · simpa using he
  | case1 => intro _; rw [collapseNL_nil]; rfl

/-! ## Lemmas: character membership through the pipeline -/

theorem mem_collapseWS {a : Char} : ∀ {l : List Char},
    a ∈ collapseWS l → a = ' ' ∨ a ∈ l := by
  intro l
  induction l using collapseWS.induct with
  | case1 => intro h; simp [collapseWS] at h
  | case2 c hc =>
    intro h
    have he : collapseWS [c] = [' '] := by simp [collapseWS, hc]
    rw [he] at h
    left; simpa using h
  | case3 c hc =>
    intro h
    have he : collapseWS [c] = [c] := by simp [collapseWS, hc]
    rw [he] at h
    right; exact h
  | case4 c d rest hc hd ih =>
    intro h
    have he : collapseWS (c :: d :: rest) = collapseWS (d :: rest) := by
      simp [collapseWS, hc, hd]
    rw [he] at h
    rcases ih h with h' | h'
    · left; exact h'
    · right; simp [h']
  | case5 c d rest hc hd ih =>
    intro h
    have he : collapseWS (c :: d :: rest) = ' ' :: collapseWS (d :: rest) := by
      simp [collapseWS, hc, hd]
    rw [he] at h
    rcases List.mem_cons.mp h with h' | h'
    · left; exact h'
    · rcases ih h' with h'' | h''
      · left; exact h''
      · right; simp [h'']
  | case6 c d rest hc ih =>
    intro h
    have he : collapseWS (c :: d :: rest) = c :: collapseWS (d :: rest) := by
      simp [collapseWS, hc]
    rw [he] at h
    rcases List.mem_cons.mp h with h' | h'
    · right; simp [h']
    · rcases ih h' with h'' | h''
      · left; exact h''
      · right; simp [h'']

theorem mem_collapseNL {a : Char} : ∀ {l : List Char},
    a ∈ collapseNL l → a ∈ l := by
  intro l
  induction l using collapseNL.induct with
  | case2 rest ih =>
    intro h
    rw [collapseNL_three] at h
    have := ih h
    simp only [List.mem_cons] at this ⊢
    tauto
  | case3 c rest hside ih =>
    intro h
    rw [collapseNL_step c rest (by
      intro ⟨h1, r1, h2⟩; exact hside r1 h1 h2)] at h
    rcases List.mem_cons.mp h with h' | h'
    · simp [h']
    · simp [ih h']
  | case1 => intro h; rw [collapseNL_nil] at h; simp at h

theorem replaceCR_no_cr (l : List Char) : '\r' ∉ replaceCR l := by
  intro h
  simp only [replaceCR, List.mem_map] at h
  obtain ⟨b, _, hb⟩ := h
  by_cases hbr : b = '\r'
  · simp [hbr] at hb
  · simp [hbr] at hb

theorem replaceCR_eq_self {l : List Char} (h : '\r' ∉ l) :
    replaceCR l = l := by
  induction l with
  | nil => rfl
  | cons a m ih =>
    have ha : ¬ a = '\r' := fun h' => h (by simp [h'])
    simp only [replaceCR, List.map_cons] at ih ⊢
    rw [if_neg ha, ih (fun h' => h (List.mem_cons_of_mem a h'))]

/-! ## Idempotence of the text normalizer -/

theorem okWS_cleanList (l : List Char) : okWS (cleanList l) = true := by
  have h3 : okWS (collapseNL (collapseWS (replaceCR l))) = true :=
    okWS_collapseNL _ (okWS_collapseWS _)
  obtain ⟨t, u, htu⟩ :=
    exists_mid_stripBoth isPyWS (collapseNL (collapseWS (replaceCR l)))
  rw [htu] at h3
  exact okWS_back (okWS_front h3)

theorem okNL_cleanList (l : List Char) : okNL (cleanList l) = true := by
  have h3 : okNL (collapseNL (collapseWS (replaceCR l))) = true :=
    okNL_collapseNL _
  obtain ⟨t, u, htu⟩ :=
    exists_mid_stripBoth isPyWS (collapseNL (collapseWS (replaceCR l)))
  rw [htu] at h3
  exact okNL_back (okNL_front h3)

theorem cleanList_no_cr (l : List Char) : '\r' ∉ cleanList l := by
  intro h
  have h1 := mem_stripBoth isPyWS _ _ h
  have h2 := mem_collapseNL h1
  rcases mem_collapseWS h2 with h' | h'
  · exact absurd h' (by decide)
  · exact replaceCR_no_cr l h'

theorem cleanList_idem (l : List Char) : cleanList (cleanList l) = cleanList l := by
  show stripBoth isPyWS (collapseNL (collapseWS (replaceCR (cleanList l)))) =
    cleanList l
  rw [replaceCR_eq_self (cleanList_no_cr l),
    collapseWS_eq_self (okWS_cleanList l),
    collapseNL_eq_self (okNL_cleanList l)]
  exact stripBoth_idem isPyWS (collapseNL (collapseWS (replaceCR l)))

theorem clean_text_eq {s : String} (hs : ¬ s = "") :
    _clean_text s = String.mk (cleanList s.data) := by
  rw [_clean_text, if_neg hs]

theorem clean_text_idem_aux (s : String) :
    _clean_text (_clean_text s) = _clean_text s := by
  by_cases hs : s = ""
  · rw [hs]; rfl
  · rw [clean_text_eq hs]
    by_cases hx : String.mk (cleanList s.data) = ""
    · rw [hx]; rfl
    · rw [clean_text_eq hx]
      have hdata : (String.mk (cleanList s.data)).data = cleanList s.data := rfl
      rw [hdata, cleanList_idem]

/-! ## Claim theorems -/

/-- C9: the text normalizer is idempotent: for every string `x`,
`_clean_text (_clean_text x) = _clean_text x`, where `_clean_text` converts
carriage returns to newlines, collapses runs of spaces/tabs to one space,
collapses three-or-more newlines to exactly two, and strips both ends. -/
theorem c9_normalize_idempotent (x : String) :
    _clean_text (_clean_text x) = _clean_text x :=
  clean_text_idem_aux x

/-- C3: per page, when the cleaned native text reaches the threshold the
output is exactly the cleaned native text whatever the OCR outcome would
have been (OCR is not consulted, so even an OCR engine failure is
irrelevant); below the threshold, with OCR returning `raw`, the output is
the cleaned OCR text exactly when it is strictly longer than the cleaned
native text, and the cleaned native text otherwise. -/
theorem c3_selection_rule (p : FPage) (thr : Nat) :
    (thr ≤ (_clean_text p.nativeText).length →
      pageText thr p = .ok (_clean_text p.nativeText)) ∧
    (∀ raw, (_clean_text p.nativeText).length < thr → p.ocrRaw = .ok raw →
      pageText thr p =
        .ok (if (_clean_text p.nativeText).length < (_clean_text raw).length
          then _clean_text raw else _clean_text p.nativeText)) := by
  constructor
  · intro h
    simp only [pageText]
    rw [if_neg (by omega)]
  · intro raw h hr
    simp only [pageText]
    rw [if_pos h, hr]

/-- Witness for C3 at two concrete pages: native text of length 5 with a
failing OCR engine and threshold 3; native text of length 2 with OCR
returning a longer text and threshold 9. -/
theorem c3_selection_rule_witness :
    pageText 3 ⟨"hello", .error ()⟩ = .ok "hello" ∧
    pageText 9 ⟨"ab", .ok "hello there"⟩ = .ok "hello there" := by
  constructor
  · have h := (c3_selection_rule ⟨"hello", .error ()⟩ 3).1 (by decide)
    rw [show _clean_text "hello" = "hello" from by decide] at h
    exact h
  · have h := (c3_selection_rule ⟨"ab", .ok "hello there"⟩ 9).2 "hello there"
      (by decide) rfl
    rw [show (if (_clean_text "ab").length < (_clean_text "hello there").length
      then _clean_text "hello there" else _clean_text "ab") = "hello there"
      from by decide] at h
    exact h

/-- C4 counterexample: a two-page document whose first page has empty
native text and a raising OCR engine.  The claimed behaviour is a degraded
record list `[(1, ""), (2, ...)]`; the code instead propagates the OCR
exception and aborts the whole text loop, producing no page records. -/
theorem c4_counterexample :
    pagesTextFrom 1000 1 [⟨"", .error ()⟩, ⟨"page two text", .ok "more"⟩] =
      .error () := rfl

/-- C4 amended: when the OCR engine raises on a page whose cleaned native
text is below the threshold, the exception propagates: that page yields no
record and the text extraction of the whole document aborts (the remaining
pages are not processed); degradation to native text happens only when the
OCR engine returns text. -/
theorem c4_ocr_error_aborts (thr pn : Nat) (p : FPage) (rest : List FPage)
    (h1 : (_clean_text p.nativeText).length < thr) (h2 : p.ocrRaw = .error ()) :
    pagesTextFrom thr pn (p :: rest) = .error () := by
  have hp : pageText thr p = .error () := by
    simp only [pageText]
    rw [if_pos h1, h2]
  simp only [pagesTextFrom]
  rw [hp]

/-- Witness for the amended C4 at a concrete one-page document. -/
theorem c4_ocr_error_aborts_witness :
    pagesTextFrom 5 1 [⟨"ab", .error ()⟩] = .error () :=
  c4_ocr_error_aborts 5 1 ⟨"ab", .error ()⟩ [] (by decide) rfl

/-- C1 counterexample: on a document whose open fails (structurally
corrupt, encrypted, or not a PDF), wet-signature detection and text/table
extraction propagate the exception instead of returning degraded empty
results; only the digital-signature walker degrades to the empty list. -/
theorem c1_counterexample :
    detect_wet_signatures (.error ()) (2 / 100) = .error () ∧
    extract_text_and_tables (.error ()) (.error ()) 1000 = .error () ∧
    detect_digital_signatures (.error ()) = [] :=
  ⟨rfl, rfl, rfl⟩

/-- C1 amended: when the document cannot be opened, the signature-field
walker returns the empty list rather than raising, but wet-signature
detection and text/table extraction propagate the open exception to the
caller rather than returning degraded empty results. -/
theorem c1_open_failure :
    detect_digital_signatures (.error ()) = [] ∧
    (∀ thr : ℚ, detect_wet_signatures (.error ()) thr = .error ()) ∧
    (∀ (po : Except Unit (List PPage)) (thr : Nat),
      extract_text_and_tables (.error ()) po thr = .error ()) :=
  ⟨rfl, fun _ => rfl, fun _ _ => rfl⟩

/-- C5: the date parser maps `"D:20250101120000"` to
`"2025-01-01T12:00:00"`; missing hour/minute/second digits default to zero;
a string not of the `D:`-prefixed form, the absent (empty) string, and
malformed digit strings all yield `""` (the parser is a total function, so
no exception escapes); and the emitted signed record carries the parsed
date as `signed_on` while `raw_time` preserves the original string. -/
theorem c5_date_parsing :
    _parse_pdf_date "D:20250101120000" = "2025-01-01T12:00:00" ∧
    _parse_pdf_date "D:20250101" = "2025-01-01T00:00:00" ∧
    (∀ s : String, (∀ t, s.data ≠ 'D' :: ':' :: t) → _parse_pdf_date s = "") ∧
    _parse_pdf_date "" = "" ∧
    _parse_pdf_date "D:13th May 2025" = "" ∧
    _parse_pdf_date "D:20251301120000" = "" ∧
    (∀ (fd : FieldData) (sd : SigVal), fd.ft = some "Sig" → fd.v = some sd →
      processField fd = some (.signedRec fd.t sd.name sd.location sd.reason
        (_parse_pdf_date sd.m) sd.m)) := by
  refine ⟨by decide, by decide, ?_, by decide, by decide, by decide, ?_⟩
  · intro s hs
    rw [_parse_pdf_date.eq_def]
    split
    · next t heq => exact absurd heq (hs t)
    · rfl
  · intro fd sd hft hv
    simp [processField, hft, hv]

/-- Witness for C5 at a non-`D:` string and a concrete signed field. -/
theorem c5_date_parsing_witness :
    _parse_pdf_date "hello" = "" ∧
    processField (.mk (some "Sig") "f1"
        (some ⟨"Alice", "NY", "approval", "D:20250101120000"⟩) []) =
      some (.signedRec "f1" "Alice" "NY" "approval"
        (_parse_pdf_date "D:20250101120000") "D:20250101120000") := by
  constructor
  · refine c5_date_parsing.2.2.1 "hello" ?_
    intro t h
    have hh : 'h' = 'D' := by injection h
    exact absurd hh (by decide)
  · exact c5_date_parsing.2.2.2.2.2.2
      (.mk (some "Sig") "f1"
        (some ⟨"Alice", "NY", "approval", "D:20250101120000"⟩) [])
      ⟨"Alice", "NY", "approval", "D:20250101120000"⟩ rfl rfl

/-- C2 counterexample: a document whose only top-level field is not
signature-typed but carries a signature-typed kid field `kid1` with no
value dictionary.  The spec-folded traversal finds `kid1`, but the walker
emits no record at all — nested kid fields are never visited. -/
theorem c2_counterexample :
    detect_digital_signatures
      (.ok (some ⟨[.ok (.mk none "parent" none
        [.mk (some "Sig") "kid1" none []])]⟩)) = [] ∧
    specSigFieldNames (.mk none "parent" none
      [.mk (some "Sig") "kid1" none []]) = ["kid1"] := by
  constructor
  · rfl
  · simp [specSigFieldNames, specSigNamesL]

/-- C2 amended: the walker's records correspond exactly to the
successfully dereferenced top-level `/Fields` entries whose field-type is
signature — kid fields are never traversed.  Each such top-level field
with no value dictionary yields its name with `signed = false`; each one
with a value dictionary yields the signed record with its signer
metadata, parsed date and raw date string; and every output record stems
from some top-level signature-typed entry. -/
theorem c2_top_level_fields (acro : AcroData) :
    (∀ fd : FieldData, (.ok fd) ∈ acro.fields → fd.ft = some "Sig" →
      fd.v = none →
      SigRecord.unsignedRec fd.t ∈ detect_digital_signatures (.ok (some acro))) ∧
    (∀ (fd : FieldData) (sd : SigVal), (.ok fd) ∈ acro.fields →
      fd.ft = some "Sig" → fd.v = some sd →
      SigRecord.signedRec fd.t sd.name sd.location sd.reason
          (_parse_pdf_date sd.m) sd.m ∈
        detect_digital_signatures (.ok (some acro))) ∧
    (∀ r, r ∈ detect_digital_signatures (.ok (some acro)) →
      ∃ fd : FieldData, (.ok fd) ∈ acro.fields ∧ fd.ft = some "Sig" ∧
        processField fd = some r) := by
  refine ⟨?_, ?_, ?_⟩
  · intro fd hmem hft hv
    simp only [detect_digital_signatures]
    apply List.mem_filterMap.mpr
    refine ⟨.ok fd, hmem, ?_⟩
    simp [processField, hft, hv]
  · intro fd sd hmem hft hv
    simp only [detect_digital_signatures]
    apply List.mem_filterMap.mpr
    refine ⟨.ok fd, hmem, ?_⟩
    simp [processField, hft, hv]
  · intro r hr
    simp only [detect_digital_signatures] at hr
    obtain ⟨f, hf, hfr⟩ := List.mem_filterMap.mp hr
    match f, hfr with
    | .error e, hfr => simp at hfr
    | .ok fd, hfr =>
      refine ⟨fd, hf, ?_, hfr⟩
      cases hft : fd.ft with
      | none => simp [processField, hft] at hfr
      | some ftn =>
        by_cases hsig : ftn = "Sig"
        · rw [hsig]
        · simp [processField, hft, hsig] at hfr

/-- Witness for the amended C2: an unsigned and a signed top-level
signature field each yield their record. -/
theorem c2_top_level_fields_witness :
    SigRecord.unsignedRec "sigfield" ∈ detect_digital_signatures
      (.ok (some ⟨[.ok (.mk (some "Sig") "sigfield" none [])]⟩)) ∧
    SigRecord.signedRec "f2" "Alice" "NY" "approval"
        (_parse_pdf_date "D:20250101120000") "D:20250101120000" ∈
      detect_digital_signatures (.ok (some ⟨[.ok (.mk (some "Sig") "f2"
        (some ⟨"Alice", "NY", "approval", "D:20250101120000"⟩) [])]⟩)) :=
  ⟨(c2_top_level_fields ⟨[.ok (.mk (some "Sig") "sigfield" none [])]⟩).1
      (.mk (some "Sig") "sigfield" none []) (by simp) rfl rfl,
    (c2_top_level_fields ⟨[.ok (.mk (some "Sig") "f2"
        (some ⟨"Alice", "NY", "approval", "D:20250101120000"⟩) [])]⟩).2.1
      (.mk (some "Sig") "f2"
        (some ⟨"Alice", "NY", "approval", "D:20250101120000"⟩) [])
      ⟨"Alice", "NY", "approval", "D:20250101120000"⟩ (by simp) rfl rfl⟩

theorem stripStr_idem (s : String) : stripStr (stripStr s) = stripStr s := by
  show String.mk (stripBoth isPyWS (stripBoth isPyWS s.data)) =
    String.mk (stripBoth isPyWS s.data)
  rw [stripBoth_idem]

theorem cellStrip_stripped (c : Option String) :
    stripStr (cellStrip c) = cellStrip c :=
  stripStr_idem (c.getD "")

/-- Anatomy of one emitted table record. -/
theorem processPageTables_mem {pageno : Nat} {p : PPage} {rec : TableRecord}
    (h : rec ∈ processPageTables pageno p) :
    ∃ ts t, p.tablesRes = .ok ts ∧ t ∈ ts ∧
      rec.rows = (t.map (fun row => row.map cellStrip)).filter
        (fun r => r.any (fun c => !(c == ""))) ∧
      rec.rows ≠ [] ∧ rec.cols = (rec.rows.head?.getD []).length ∧
      rec.page_no = pageno ∧ rec.bbox = p.bboxP := by
  unfold processPageTables at h
  match hres : p.tablesRes with
  | .error e => rw [hres] at h; simp at h
  | .ok ts =>
    rw [hres] at h
    obtain ⟨t, ht, hsome⟩ := List.mem_filterMap.mp h
    refine ⟨ts, t, rfl, ht, ?_⟩
    revert hsome
    cases hrows : (t.map (fun row => row.map cellStrip)).filter
        (fun r => r.any (fun c => !(c == ""))) with
    | nil => intro hsome; simp at hsome
    | cons r0 rs =>
      intro hsome
      have hrec : rec = ⟨pageno, r0 :: rs, r0.length, p.bboxP⟩ := by
        simpa using hsome.symm
      rw [hrec]
      exact ⟨rfl, by simp, rfl, rfl, rfl⟩

/-- C7: every emitted table record has nonempty `rows`; its `cols` is the
length of its first row; every retained row has at least one non-empty
cell after stripping and all its cells are already stripped; and a page
whose grid extraction raises contributes no records while the loop
continues over the remaining pages. -/
theorem c7_table_shape :
    (∀ (pageno : Nat) (p : PPage) (rec : TableRecord),
      rec ∈ processPageTables pageno p →
      rec.rows ≠ [] ∧ rec.cols = (rec.rows.head?.getD []).length ∧
      (∀ row ∈ rec.rows,
        row.any (fun c => !(c == "")) = true ∧ row.map stripStr = row)) ∧
    (∀ (pn : Nat) (bb : List ℚ) (e : Unit) (rest : List PPage),
      tablesFrom pn (⟨bb, .error e⟩ :: rest) = tablesFrom (pn + 1) rest) := by
  constructor
  · intro pageno p rec h
    obtain ⟨ts, t, hres, ht, hrowsEq, hne, hcols, _, _⟩ :=
      processPageTables_mem h
    refine ⟨hne, hcols, ?_⟩
    intro row hrow
    rw [hrowsEq] at hrow
    have hmf := List.mem_filter.mp hrow
    refine ⟨hmf.2, ?_⟩
    obtain ⟨row0, _, hrow0⟩ := List.mem_map.mp hmf.1
    rw [← hrow0]
    rw [List.map_map]
    apply List.map_congr_left
    intro c _
    exact cellStrip_stripped c
  · intro pn bb e rest
    show processPageTables pn ⟨bb, .error e⟩ ++ tablesFrom (pn + 1) rest =
      tablesFrom (pn + 1) rest
    rfl

/-- Witness for C7 at a concrete page: one table whose all-empty second
row is dropped, and an erroring page followed by that page. -/
theorem c7_table_shape_witness :
    ((⟨1, [["a", ""]], 2, []⟩ : TableRecord).rows ≠ [] ∧
      (⟨1, [["a", ""]], 2, []⟩ : TableRecord).cols =
        (((⟨1, [["a", ""]], 2, []⟩ : TableRecord).rows.head?.getD []).length) ∧
      (∀ row ∈ (⟨1, [["a", ""]], 2, []⟩ : TableRecord).rows,
        row.any (fun c => !(c == "")) = true ∧ row.map stripStr = row)) ∧
    tablesFrom 1 [⟨[], .error ()⟩,
      ⟨[], .ok [[[some " a ", none], [some "", some "  "]]]⟩] =
      [⟨2, [["a", ""]], 2, []⟩] := by
  constructor
  · refine c7_table_shape.1 1
      ⟨[], .ok [[[some " a ", none], [some "", some "  "]]]⟩ _ ?_
    have hp : processPageTables 1
        (⟨[], .ok [[[some " a ", none], [some "", some "  "]]]⟩ : PPage) =
        [⟨1, [["a", ""]], 2, []⟩] := by decide
    rw [hp]
    exact List.mem_singleton.mpr rfl
  · exact (c7_table_shape.2 1 [] () _).trans (by decide)

/-- C10: every emitted table record's `bbox` is the page's own bounding
box, so any two tables extracted from the same page carry an identical
`bbox` (the record never holds the table's own bounding box — the model
of `extract_tables` has no per-table geometry at all). -/
theorem c10_bbox_is_page_bbox :
    (∀ (pageno : Nat) (p : PPage) (rec : TableRecord),
      rec ∈ processPageTables pageno p → rec.bbox = p.bboxP) ∧
    (∀ (pageno : Nat) (p : PPage) (r1 r2 : TableRecord),
      r1 ∈ processPageTables pageno p → r2 ∈ processPageTables pageno p →
      r1.bbox = r2.bbox) := by
  have hfst : ∀ (pageno : Nat) (p : PPage) (rec : TableRecord),
      rec ∈ processPageTables pageno p → rec.bbox = p.bboxP := by
    intro pageno p rec h
    obtain ⟨_, _, _, _, _, _, _, _, hb⟩ := processPageTables_mem h
    exact hb
  exact ⟨hfst, fun pageno p r1 r2 h1 h2 =>
    (hfst pageno p r1 h1).trans (hfst pageno p r2 h2).symm⟩

/-- Witness for C10: two tables on one page share the page bbox. -/
theorem c10_bbox_is_page_bbox_witness :
    (⟨1, [["a"]], 1, []⟩ : TableRecord).bbox =
      (⟨1, [["b"]], 1, []⟩ : TableRecord).bbox := by
  refine c10_bbox_is_page_bbox.2 1 ⟨[], .ok [[[some "a"]], [[some "b"]]]⟩
    _ _ ?_ ?_
  · have hp : processPageTables 1
        (⟨[], .ok [[[some "a"]], [[some "b"]]]⟩ : PPage) =
        [⟨1, [["a"]], 1, []⟩, ⟨1, [["b"]], 1, []⟩] := by decide
    rw [hp]; decide
  · have hp : processPageTables 1
        (⟨[], .ok [[[some "a"]], [[some "b"]]]⟩ : PPage) =
        [⟨1, [["a"]], 1, []⟩, ⟨1, [["b"]], 1, []⟩] := by decide
    rw [hp]; decide

/-! ## Wet-signature lemmas -/

theorem wetStep_count {thr : ℚ} {pn : Nat} {rect : Rect}
    {render : Rect → InkStats} {acc : Nat × List WetDetail}
    {hit : String × Rect}
    (h : acc.1 = (acc.2.filter (fun d => d.present)).length) :
    (wetStep thr pn rect render acc hit).1 =
      ((wetStep thr pn rect render acc hit).2.filter
        (fun d => d.present)).length := by
  unfold wetStep
  cases hph : processHit rect render thr pn hit with
  | none => exact h
  | some d =>
    simp only [List.filter_append, List.length_append, h]
    cases hd : d.present <;> simp [hd]

theorem foldl_wetStep_count (thr : ℚ) (pn : Nat) (rect : Rect)
    (render : Rect → InkStats) :
    ∀ (hits : List (String × Rect)) (acc : Nat × List WetDetail),
      acc.1 = (acc.2.filter (fun d => d.present)).length →
      (hits.foldl (wetStep thr pn rect render) acc).1 =
        ((hits.foldl (wetStep thr pn rect render) acc).2.filter
          (fun d => d.present)).length := by
  intro hits
  induction hits with
  | nil => intro acc h; exact h
  | cons hit hs ih =>
    intro acc h
    exact ih _ (wetStep_count h)

theorem wetPages_count (thr : ℚ) :
    ∀ (pages : List WPage) (pn : Nat) (acc : Nat × List WetDetail),
      acc.1 = (acc.2.filter (fun d => d.present)).length →
      (wetPages thr pn pages acc).1 =
        ((wetPages thr pn pages acc).2.filter (fun d => d.present)).length := by
  intro pages
  induction pages with
  | nil => intro pn acc h; exact h
  | cons pg rest ih =>
    intro pn acc h
    exact ih _ _ (foldl_wetStep_count thr pn pg.rect pg.render (hitsOf pg) acc h)

/-- C8: for every document and threshold, `wet_signatures_detected` equals
the number of detail records whose `present` flag is true. -/
theorem c8_count_matches_details (thr : ℚ) (pages : List WPage) :
    (detect_wet_core thr pages).wet_signatures_detected =
      ((detect_wet_core thr pages).details.filter
        (fun d => d.present)).length := by
  unfold detect_wet_core
  exact wetPages_count thr pages 1 (0, []) rfl

/-- C6 amended: a detail's `present` flag is computed from the exact
(unrounded) ink ratio of its rendered crop, while the reported
`ink_density` is that ratio rounded to four decimal places — so `present`
need not equal `(reported ink_density ≥ threshold)` when the rounding
crosses the threshold. -/
theorem c6_present_from_exact_density (pageRect : Rect)
    (render : Rect → InkStats) (thr : ℚ) (pn : Nat) (hit : String × Rect)
    (d : WetDetail) (h : processHit pageRect render thr pn hit = some d) :
    d.present = decide (thr ≤ densityOf (render ((cropFor hit.2).inter pageRect))) ∧
    d.ink_density = round4 (densityOf (render ((cropFor hit.2).inter pageRect))) := by
  simp only [processHit] at h
  by_cases hc : ((cropFor hit.2).inter pageRect).isEmptyR = true
  · rw [if_pos hc] at h
    exact absurd h (by simp)
  · rw [if_neg hc] at h
    injection h with h'
    rw [← h']
    exact ⟨rfl, rfl⟩

theorem wetPages_one (thr : ℚ) (pn : Nat) (pg : WPage) (acc : Nat × List WetDetail) :
    wetPages thr pn [pg] acc =
      (hitsOf pg).foldl (wetStep thr pn pg.rect pg.render) acc := by
  simp [wetPages]

/-- The inner-loop body at a one-hit page whose crop renders with 1996 ink
pixels out of 100000: the exact ratio `0.01996` is below the `0.02`
threshold, so `present = false`, while the reported density rounds up to
exactly `0.02`. -/
theorem processHit_sample :
    processHit ⟨0, 0, 1000, 1000⟩ (fun _ => ⟨1996, 100000⟩) (2 / 100) 1
      ("signature", ⟨0, 20, 50, 30⟩) =
      some ⟨1, "signature", [60, 10, 260, 70], 1 / 50, false⟩ := by
  have hcrop : (cropFor ⟨0, 20, 50, 30⟩).inter ⟨0, 0, 1000, 1000⟩ =
      ⟨60, 10, 260, 70⟩ := by
    simp [cropFor, Rect.inter]
    norm_num [max_def, min_def]
  have hempty : (⟨60, 10, 260, 70⟩ : Rect).isEmptyR = false := by
    simp only [Rect.isEmptyR, Bool.or_eq_false_iff, decide_eq_false_iff_not]
    norm_num
  have hq : densityOf ⟨1996, 100000⟩ = 499 / 25000 := by norm_num [densityOf]
  have hround : round4 (499 / 25000 : ℚ) = 1 / 50 := by
    have h1 : Int.fdiv 998 5 = 199 := by decide
    have h2 : ((499 : ℚ) / 25000) * 10000 = 998 / 5 := by norm_num
    norm_num [round4, roundHE, ratFloor, h2, h1]
  have hpres : decide ((2 : ℚ) / 100 ≤ 499 / 25000) = false := by
    simp only [decide_eq_false_iff_not]
    norm_num
  simp only [processHit, hcrop, hempty, Bool.false_eq_true, if_false, hq,
    hround, hpres]

set_option maxHeartbeats 1000000 in
/-- C6 counterexample: in the output of the wet-signature detector on a
one-page document with one label hit rendering to 1996/100000 ink, the
sole detail record has `present = false` although its reported
`ink_density` (rounded to `0.02`) is at the threshold `0.02` — so
`present` is not determined by the recorded `ink_density` value. -/
theorem c6_counterexample :
    ((detect_wet_core (2 / 100)
        [⟨⟨0, 0, 1000, 1000⟩,
          (fun lab => if lab = "signature" then [⟨0, 20, 50, 30⟩] else []),
          (fun _ => ⟨1996, 100000⟩)⟩]).details.map
      (fun d => (d.present, decide ((2 : ℚ) / 100 ≤ d.ink_density)))) =
      [(false, true)] := by
  have hhits : hitsOf ⟨⟨0, 0, 1000, 1000⟩,
      (fun lab => if lab = "signature" then [⟨0, 20, 50, 30⟩] else []),
      (fun _ => ⟨1996, 100000⟩)⟩ = [("signature", ⟨0, 20, 50, 30⟩)] := by
    simp [hitsOf, LABELS]
  rw [detect_wet_core, wetPages_one, hhits, List.foldl_cons, List.foldl_nil,
    wetStep, processHit_sample]
  have hlast : decide ((2 : ℚ) / 100 ≤ 1 / 50) = true := by
    simp only [decide_eq_true_eq]
    norm_num
  simp [hlast]
  norm_num

/-- Witness for the amended C6 at the same concrete hit. -/
theorem c6_present_from_exact_density_witness :
    (⟨1, "signature", [60, 10, 260, 70], 1 / 50, false⟩ : WetDetail).present =
      decide ((2 : ℚ) / 100 ≤ densityOf ((fun _ => ⟨1996, 100000⟩ :
        Rect → InkStats)
        ((cropFor (("signature", ⟨0, 20, 50, 30⟩) : String × Rect).2).inter
          ⟨0, 0, 1000, 1000⟩))) ∧
    (⟨1, "signature", [60, 10, 260, 70], 1 / 50, false⟩ : WetDetail).ink_density =
      round4 (densityOf ((fun _ => ⟨1996, 100000⟩ : Rect → InkStats)
        ((cropFor (("signature", ⟨0, 20, 50, 30⟩) : String × Rect).2).inter
          ⟨0, 0, 1000, 1000⟩))) :=
  c6_present_from_exact_density ⟨0, 0, 1000, 1000⟩ (fun _ => ⟨1996, 100000⟩)
    (2 / 100) 1 ("signature", ⟨0, 20, 50, 30⟩) _ processHit_sample

end PdfService
